import Mathlib

/-!
Verification development for the dokkan-scraper variant-extraction and
family-resolution engine (`scrapeDokkanInfoBS4.py`).

The Python source is shallowly embedded: each relevant Python function is
translated into an executable Lean definition of the same name (modulo
Lean naming rules).  DOM-query results (BeautifulSoup selectors) are
modelled by a `Page` structure whose fields hold exactly the values the
Python functions read off the parsed document; JSON dictionaries become
structures, Python lists become `List`, `None`-able fields become `Option`.
Python string idioms (`str.strip`, `str.isdigit`, `re.split(r"\s*;\s*")`,
`re.sub(r"\s+", " ")`, substring / word-boundary tests over ASCII text)
are given explicit executable models below.
-/

namespace Dokkan


/-! ## Python string primitives -/

/-- Whitespace as recognised by the Python `str`/`re` helpers used in the
source (ASCII space, tab, newline, carriage return, form feed, vertical
tab). -/
def isWS (c : Char) : Bool :=
  c == ' ' || c == '\t' || c == '\n' || c == '\r' || c == '\x0c' || c == '\x0b'

/-- Python `str.strip()`. -/
def pyStrip (s : String) : String :=
  ⟨(s.data.dropWhile isWS).reverse.dropWhile isWS |>.reverse⟩

/-- Python `str.isdigit()` restricted to ASCII decimal digits (the only
digits that occur in the scraped markup). -/
def pyIsDigit (s : String) : Bool :=
  s.data ≠ [] && s.data.all Char.isDigit

/-- Value of an ASCII decimal digit string, as computed by Python `int`. -/
def digitsVal (s : String) : Nat :=
  s.data.foldl (fun a c => 10 * a + (c.toNat - 48)) 0

/-- Python `int(s)` guarded by `s.isdigit()`: `some` value on digit
strings, `none` otherwise (the source only ever converts after an
`isdigit` check, or catches the exception). -/
def pyToNat (s : String) : Option Nat :=
  if pyIsDigit s then some (digitsVal s) else none

/-- Python `str.upper()` over the ASCII rarity/type tags that occur in
the source. -/
def pyUpper (s : String) : String :=
  ⟨s.data.map Char.toUpper⟩

/-- Decimal rendering of a natural number, modelling Python `str(n)` /
f-string interpolation of a non-negative `int`. -/
def natDecimal (n : Nat) : String :=
  if n = 0 then "0"
  else ⟨((Nat.digits 10 n).reverse.map (fun d => Char.ofNat (48 + d)))⟩

/-- Left inverse of `natDecimal`. -/
def decimalVal (s : String) : Nat :=
  Nat.ofDigits 10 ((s.data.map (fun c => c.toNat - 48)).reverse)

/-! ## Variant keys (`build_variant_key`, `build_form_variant_key`,
`super_eza_step_for_rarity`) -/

/-- Source function `build_variant_key(eza, step)`. -/
def build_variant_key (eza : Bool) (step : Option Nat) : String :=
  if !eza then "base"
  else match step with
    | none => "eza"
    | some s => "eza_step_" ++ natDecimal s

/-- Source function `build_form_variant_key(form_id, eza, step)`. -/
def build_form_variant_key (form_id : String) (eza : Bool) (step : Option Nat) : String :=
  if !eza then "form_" ++ form_id ++ "_base"
  else match step with
    | none => "form_" ++ form_id ++ "_eza"
    | some s => "form_" ++ form_id ++ "_eza_step_" ++ natDecimal s

/-- Source function `super_eza_step_for_rarity(rarity)`. -/
def super_eza_step_for_rarity (rarity : Option String) : Option Nat :=
  match rarity with
  | none => none
  | some r =>
    if r = "" then none
    else if pyUpper r = "LR" then some 4
    else if pyUpper r = "UR" then some 8
    else none

/-! ## Page model and enhancement-step discovery

A `Page` records the results of the DOM queries the discovery functions
perform on a parsed document (BeautifulSoup selectors): presence of the
EZA release-date block and of "EZA" stat-table headers, the
`div.multiselect` step selector with its option texts (as returned by
`get_text(strip=True)`), the single currently-selected tag text, and the
PRE-EZA / EZA toggle. -/

structure Page where
  has_eza_release_block : Bool
  has_eza_stats_header : Bool
  has_multiselect : Bool
  dropdown_options : List String
  single_tag : Option String
  has_pre_eza_toggle : Bool

/-- Insert into a strictly sorted duplicate-free list, used to model
Python `sorted(set(...))`. -/
def insSortedND (n : Nat) : List Nat → List Nat
  | [] => [n]
  | m :: rest =>
    if n < m then n :: m :: rest
    else if n = m then m :: rest
    else m :: insSortedND n rest

/-- Python `sorted(set(l))`. -/
def sortedDedup (l : List Nat) : List Nat :=
  l.foldl (fun acc n => insSortedND n acc) []

/-- Python `max(l)` on a non-empty list of naturals. -/
def pyMaxNat (l : List Nat) : Nat := l.foldl Nat.max 0

/-- Python truthiness-guarded `rarity_hint and rarity_hint.upper() == tgt`. -/
def rarityUpperIs (r : Option String) (tgt : String) : Bool :=
  match r with
  | some s => s ≠ "" && pyUpper s == tgt
  | none => false

/-- Source function `discover_eza_steps_from_dropdown(soup)`: digit option texts of the
step selector, as a sorted set. -/
def discover_eza_steps_from_dropdown (p : Page) : List Nat :=
  sortedDedup (p.dropdown_options.filterMap (fun t => pyToNat (pyStrip t)))

/-- The digit value of the single visible `multiselect__single` tag, when
present (`(single.get_text(strip=True) or "").strip().isdigit()`). -/
def single_digit_value (p : Page) : Option Nat :=
  match p.single_tag with
  | none => none
  | some t => pyToNat (pyStrip t)

/-- Source function `has_eza_dropdown(soup)`. -/
def has_eza_dropdown (p : Page) : Bool :=
  if !p.has_multiselect then false
  else if discover_eza_steps_from_dropdown p ≠ [] then true
  else (single_digit_value p).isSome

/-- Source function `discover_eza_steps_with_fallback(soup, rarity_hint)`:
backfill `1..max` from the dropdown, else use the single selected value
extended to the rarity cap. -/
def discover_eza_steps_with_fallback (p : Page) (rarity_hint : Option String) : List Nat :=
  if discover_eza_steps_from_dropdown p ≠ [] then
    List.range' 1 (pyMaxNat (discover_eza_steps_from_dropdown p))
  else match p.single_tag with
    | none => []
    | some t =>
      match pyToNat (pyStrip t) with
      | none => []
      | some cur =>
        if rarityUpperIs rarity_hint "UR" then List.range' 1 (max cur 8)
        else if rarityUpperIs rarity_hint "LR" then List.range' 1 (max cur 4)
        else List.range' 1 cur

/-- Source function `discover_eza_steps_on_page_soup(soup, rarity_hint)`:
UI-driven detection, gated only on the dropdown / PRE-EZA toggle. -/
def discover_eza_steps_on_page_soup (p : Option Page) (rarity_hint : Option String) :
    List Nat × Option Nat :=
  match p with
  | none => ([], none)
  | some pg =>
    if !(has_eza_dropdown pg || pg.has_pre_eza_toggle) then ([], none)
    else
      (discover_eza_steps_with_fallback pg rarity_hint,
        if discover_eza_steps_with_fallback pg rarity_hint ≠ [] then
          some (pyMaxNat (discover_eza_steps_with_fallback pg rarity_hint))
        else none)

/-- Source function `has_eza_evidence(soup)` (release block or EZA stat
headers). -/
def has_eza_evidence (p : Page) : Bool :=
  p.has_eza_release_block || p.has_eza_stats_header

/-- Source function `discover_eza_steps_safe(soup, rarity_hint)`: the
hard-evidence-gated discoverer. -/
def discover_eza_steps_safe (p : Page) (rarity_hint : Option String) : List Nat :=
  if !has_eza_evidence p then []
  else if discover_eza_steps_from_dropdown p ≠ [] then
    List.range' 1 (pyMaxNat (discover_eza_steps_from_dropdown p))
  else match p.single_tag with
      | none => []
      | some t =>
        match pyToNat (pyStrip t) with
        | none => []
        | some cur =>
          if rarityUpperIs rarity_hint "UR" then List.range' 1 (max cur 8)
          else if rarityUpperIs rarity_hint "LR" then List.range' 1 (max cur 4)
          else List.range' 1 cur

/-- The `is_super_eza` assignment in `scrape_one_variant`: set when the
variant is an EZA step equal to the discovered maximum and that maximum
is 4 or 8; otherwise the seeded `False` is kept. -/
def is_super_eza_flag (eza : Bool) (step : Option Nat) (eza_max_step_hint : Option Nat) : Bool :=
  match step, eza_max_step_hint with
  | some st, some mx => eza && (st == mx && (mx == 4 || mx == 8))
  | _, _ => false

/-- A concrete parsed page carrying a populated step-selector dropdown but
neither an EZA release-date block nor EZA stat-table columns. -/
def pageDropdownNoEvidence : Page :=
  { has_eza_release_block := false
    has_eza_stats_header := false
    has_multiselect := true
    dropdown_options := ["1", "2"]
    single_tag := none
    has_pre_eza_toggle := false }

/-- A concrete UR-rarity page whose step dropdown lists only steps 1–4
(the LR cap, not the UR cap of 8). -/
def pageURDropdownMax4 : Page :=
  { has_eza_release_block := true
    has_eza_stats_header := true
    has_multiselect := true
    dropdown_options := ["1", "2", "3", "4"]
    single_tag := none
    has_pre_eza_toggle := false }

/-! ## Transform / reversible-exchange clause extraction
(`extract_transform_and_exchange`) -/

/-- Python `str.lower()` over the ASCII effect text. -/
def pyLower (s : String) : String :=
  ⟨s.data.map Char.toLower⟩

/-- Split a character list at `';'`. -/
def splitSemiAux (acc : List Char) : List Char → List (List Char)
  | [] => [acc.reverse]
  | c :: rest =>
    if c == ';' then acc.reverse :: splitSemiAux [] rest
    else splitSemiAux (c :: acc) rest

/-- The clause list `[c.strip() for c in re.split(r"\s*;\s*", s) if c.strip()]`:
the regex only consumes whitespace adjacent to each semicolon, which the
per-piece strip removes as well, so splitting at `';'` and stripping each
piece is equivalent. -/
def pyClauses (s : String) : List String :=
  ((splitSemiAux [] s.data).map (fun l => pyStrip ⟨l⟩)).filter (fun c => c ≠ "")

/-- A word-constituent character for Python's `re` `\b` over the ASCII
effect text (`\w` = alphanumeric or underscore). -/
def isWordChar (c : Char) : Bool := c.isAlphanum || c == '_'

/-- Boundary `\b` holds before the match when the preceding character (if any) is
not a word character. -/
def boundaryBefore : Option Char → Bool
  | some c => !isWordChar c
  | none => true

/-- Boundary `\b` holds after the match when the following character (if any) is
not a word character. -/
def boundaryAfter : List Char → Bool
  | [] => true
  | c :: _ => !isWordChar c

/-- Does `w` occur at the head of `s` with word boundaries on both sides
(`prev` is the character just before `s`)? -/
def matchesWordAt (w : List Char) (prev : Option Char) (s : List Char) : Bool :=
  boundaryBefore prev && w.isPrefixOf s && boundaryAfter (s.drop w.length)

/-- Does `w` occur anywhere in `s` as a whole word? -/
def containsWordAux (w : List Char) : Option Char → List Char → Bool
  | prev, [] => matchesWordAt w prev []
  | prev, c :: rest => matchesWordAt w prev (c :: rest) || containsWordAux w (some c) rest

/-- Python `re.search(r"\btransforms?\b", s)` (as a Boolean). -/
def containsTransformWord (s : String) : Bool :=
  containsWordAux "transform".data none s.data ||
    containsWordAux "transforms".data none s.data

/-- Is `needle` an infix of `hay` (Python `needle in hay`)? -/
def isInfixB (n : List Char) : List Char → Bool
  | [] => n.isPrefixOf []
  | c :: rest => n.isPrefixOf (c :: rest) || isInfixB n rest

/-- Python `needle in hay` on strings. -/
def containsSubstr (hay needle : String) : Bool :=
  isInfixB needle.data hay.data

/-- Collapse each maximal whitespace run to one space (`re.sub(r"\s+", " ", s)`);
the flag records whether the previous character was whitespace. -/
def condenseAux : Bool → List Char → List Char
  | _, [] => []
  | inWS, c :: rest =>
    if isWS c then
      if inWS then condenseAux true rest else ' ' :: condenseAux true rest
    else c :: condenseAux false rest

/-- Source helper `_condense_spaces(s)`. -/
def condense_spaces (s : String) : String :=
  pyStrip ⟨condenseAux false s.data⟩

/-- The clause test `"reversible exchange" in low` from the extraction loop. -/
def isExchangeClause (c : String) : Bool :=
  containsSubstr (pyLower c) "reversible exchange"

/-- The clause test `re.search(r"\btransforms?\b", low) or "transformation" in low`. -/
def isTransformText (c : String) : Bool :=
  containsTransformWord (pyLower c) || containsSubstr (pyLower c) "transformation"

/-- The clauses routed to `exchange_clauses` by the loop (exchange is
tested first, with `continue`). -/
def exchange_clauses (s : String) : List String :=
  (pyClauses s).filter isExchangeClause

/-- The clauses routed to `transform_clauses` by the loop. -/
def transform_clauses (s : String) : List String :=
  (pyClauses s).filter (fun c => !isExchangeClause c && isTransformText c)

/-- The clauses kept in the general effect text. -/
def keep_clauses (s : String) : List String :=
  (pyClauses s).filter (fun c => !isExchangeClause c && !isTransformText c)

/-- Python `max(cands, key=len)` wrapped for the possibly-empty case
(`pick_longest`): later elements replace the running best only when
strictly longer, so the first longest candidate wins. -/
def pyMaxByLen : List String → Option String
  | [] => none
  | h :: t => some (t.foldl (fun b x => if b.length < x.length then x else b) h)

/-- Python truthiness `bool(opt)` for an optional string. -/
def truthyOptStr : Option String → Bool
  | none => false
  | some s => s ≠ ""

/-- Python `opt or None`. -/
def orNone : Option String → Option String
  | none => none
  | some s => if s = "" then none else some s

/-- The `{can_*, condition}` result dictionaries. -/
structure ClauseResult where
  can : Bool
  condition : Option String
deriving DecidableEq, Repr

/-- Source function `extract_transform_and_exchange(passive_effect)`. -/
def extract_transform_and_exchange (s : String) :
    String × ClauseResult × ClauseResult :=
  if s = "" then (s, ⟨false, none⟩, ⟨false, none⟩)
  else
    (pyStrip (String.intercalate "; " (keep_clauses s)),
     ⟨truthyOptStr ((pyMaxByLen (transform_clauses s)).map condense_spaces),
      orNone ((pyMaxByLen (transform_clauses s)).map condense_spaces)⟩,
     ⟨truthyOptStr ((pyMaxByLen (exchange_clauses s)).map condense_spaces),
      orNone ((pyMaxByLen (exchange_clauses s)).map condense_spaces)⟩)

/-! ## Passive line rendering (`render_passive_effect_with_markers`) -/

/-- One passive line record `{text, context, once, permanent}` as emitted
by the passive annotation walk. -/
structure PassiveLine where
  text : Option String
  context : Option String
  once : Bool
  permanent : Bool
deriving DecidableEq, Repr

/-- The marker-prefixed, stripped segment of one line:
`f"{marker}{it.get('text') or ''}".strip()`. -/
def lineSeg (it : PassiveLine) : String :=
  pyStrip ((if it.once then "(Once) " else if it.permanent then "(Forever) " else "") ++
    (match it.text with | some t => t | none => ""))

/-- The rendering loop: a context prefix is added only when the line's
context differs from `last_ctx` (and is truthy); `last_ctx` is updated on
that same condition. -/
def renderLines : Option String → List PassiveLine → List String
  | _, [] => []
  | lastCtx, it :: rest =>
    if it.context = lastCtx then
      lineSeg it :: renderLines lastCtx rest
    else
      (match it.context with
        | some c => if c = "" then lineSeg it else c ++ ": " ++ lineSeg it
        | none => lineSeg it) :: renderLines it.context rest

/-- One pass of `re.sub(r"\s*;\s*", "; ", …)`: each semicolon together
with the maximal whitespace runs around it becomes `"; "`; the flag is
true while consuming the whitespace that follows a semicolon. -/
def subSemisAux : Bool → List Char → List Char
  | _, [] => []
  | skipWS, c :: rest =>
    if skipWS && isWS c then subSemisAux true rest
    else if c == ';' then ';' :: ' ' :: subSemisAux true rest
    else if isWS c && ((rest.dropWhile isWS).head? == some ';') then subSemisAux false rest
    else c :: subSemisAux false rest

/-- Source function `render_passive_effect_with_markers(lines)`. -/
def render_passive_effect_with_markers (lines : List PassiveLine) : String :=
  pyStrip ⟨subSemisAux false (String.intercalate "; " (renderLines none lines)).data⟩

/-! ## Family documents and the merge (`merge_variant_into_unit_json`,
`merge_assets_index`) -/

/-- One `assets_index` item `{path, subtype, card_id, locale}`. -/
structure AssetItem where
  path : String
  subtype : String
  card_id : String
  locale : String
deriving DecidableEq, Repr

/-- Sort key comparison used by `sort(key=lambda x: (x.get("subtype") or "",
x.get("path") or ""))`: lexicographic on the `(subtype, path)` pair. -/
def itemLe (a b : AssetItem) : Bool :=
  decide (toLex (a.subtype, a.path) ≤ toLex (b.subtype, b.path))

/-- Python's stable `list.sort` under the `(subtype, path)` key. -/
def sortItems (l : List AssetItem) : List AssetItem :=
  l.mergeSort itemLe

/-- An assets index: category → item list, as an insertion-ordered
association list (a Python dict). -/
abbrev AIdx := List (String × List AssetItem)

/-- Dictionary lookup `dst.get(cat)` / `dst[cat]` (first entry wins). -/
def catItems (d : AIdx) (cat : String) : List AssetItem :=
  match d.find? (fun e => e.1 == cat) with
  | some e => e.2
  | none => []

/-- Store `items` under `cat`: replace the first entry with that key, or
append a new entry at the end (`dict.setdefault` followed by in-place
mutation). -/
def aidxSet (d : AIdx) (cat : String) (items : List AssetItem) : AIdx :=
  match d with
  | [] => [(cat, items)]
  | e :: rest => if e.1 = cat then (cat, items) :: rest else e :: aidxSet rest cat items

/-- One iteration of the `merge_assets_index` loop for a source category:
`have` is the set of existing paths, computed once; items whose path is
not in it are appended; the resulting list is sorted in place. -/
def mergeCat (d : AIdx) (cat : String) (items : List AssetItem) : AIdx :=
  aidxSet d cat (sortItems (catItems d cat ++
    items.filter (fun it => decide (it.path ∉ (catItems d cat).map AssetItem.path))))

/-- Source function `merge_assets_index(dst, src)`. -/
def merge_assets_index (dst src : AIdx) : AIdx :=
  src.foldl (fun d e => mergeCat d e.1 e.2) dst

/-- One Variant Record, restricted to the fields
`merge_variant_into_unit_json` reads or writes; everything else in the
record is carried opaquely in `payload` (the record is replaced
wholesale on upsert).  `from_ids`/`to_ids` are the `awakening` lists
(already lists, so the normalisation step of the source is the
identity here). -/
structure Variant where
  key : String
  form_id : Option String
  rarity : Option String
  rarity_rank : Option Int
  from_ids : List String
  to_ids : List String
  awaken_chain_head_id : Option String
  is_fully_awakened : Bool
  payload : String
deriving DecidableEq, Repr

/-- The unit-level fields passed alongside a variant record. -/
structure UnitFields where
  unit_id : Option String
  form_id : Option String
  display_name : Option String
  rarity : Option String
  type_tag : Option String
  source_base_url : Option String
  assets : List String
  assets_index : AIdx
deriving DecidableEq, Repr

/-- A family document (`METADATA.json`). -/
structure FamilyDoc where
  unit_id : Option String
  form_id : Option String
  display_name : Option String
  rarity : Option String
  type_tag : Option String
  source_base_url : Option String
  variants : List Variant
  assets : List String
  assets_index : AIdx
deriving DecidableEq, Repr

/-- Python truthiness of an optional string (`not current.get(k)`). -/
def pyFalsyStr : Option String → Bool
  | none => true
  | some s => s = ""

/-- The top-level refresh `if not current.get(k) and unit_fields.get(k):
current[k] = unit_fields[k]`. -/
def refreshField (cur incoming : Option String) : Option String :=
  if pyFalsyStr cur && !pyFalsyStr incoming then incoming else cur

/-- The `_union` helper of the merge: `seen`/`out` start as copies of the
left list; right elements are appended when unseen. -/
def unionAuxStr (seen out : List String) : List String → List String
  | [] => out
  | x :: rest =>
    if x ∈ seen then unionAuxStr seen out rest
    else unionAuxStr (x :: seen) (out ++ [x]) rest

/-- Source helper `_union(a, b)`. -/
def pyUnionStr (a b : List String) : List String :=
  unionAuxStr a a b

/-- Upsert by `key`: replace the first variant with the same key, else
append. -/
def upsertVariant (vr : Variant) : List Variant → List Variant
  | [] => [vr]
  | v :: rest => if v.key = vr.key then vr :: rest else v :: upsertVariant vr rest

/-- The local `RARITY_RANK` mapping with default `-1`. -/
def RARITY_RANK (r : String) : Int :=
  if r = "N" then 0 else if r = "R" then 1 else if r = "SR" then 2
  else if r = "SSR" then 3 else if r = "UR" then 4 else if r = "LR" then 5 else -1

/-- Source helper `_rarity_rank_of_variant(v)`: the explicit
`rarity_rank` when it is an int, else the textual rarity. -/
def rarity_rank_of_variant (v : Variant) : Int :=
  match v.rarity_rank with
  | some n => n
  | none => RARITY_RANK (pyUpper (match v.rarity with | some r => r | none => ""))

/-- Truthiness of `v.get("form_id")`. -/
def hasFormId (v : Variant) : Bool :=
  match v.form_id with
  | some s => s ≠ ""
  | none => false

/-- The (string) form id; only meaningful under `hasFormId`.  Scraped
form ids are already strings, so the source's `str(...)` is the
identity. -/
def formIdStr (v : Variant) : String :=
  match v.form_id with
  | some s => s
  | none => ""

/-- Source mapping `var_by_id`: a dict comprehension keyed by form id,
so for duplicate ids the last variant wins. -/
def var_by_id (vs : List Variant) (fid : String) : Option Variant :=
  (vs.filter (fun v => hasFormId v && formIdStr v == fid)).getLast?

/-- Source helper `_next_ids(fid)`: the declared `to_ids`, restricted
to ids present in this document when that restriction is non-empty. -/
def next_ids (vs : List Variant) (fid : String) : List String :=
  match var_by_id vs fid with
  | none => []
  | some v =>
    if v.to_ids.filter (fun i => (var_by_id vs i).isSome) ≠ [] then
      v.to_ids.filter (fun i => (var_by_id vs i).isSome)
    else v.to_ids

/-- Python `int(nid)` with the surrounding `except` returning `-1`; scraped form
ids are decimal digit strings, anything else falls to the exception
branch. -/
def pyIntOrNeg (s : String) : Int :=
  match pyToNat s with
  | some n => (n : Int)
  | none => -1

/-- The fork tie-break key `(rarity rank, numeric id)` of `_chain_head`. -/
def chain_key (vs : List Variant) (nid : String) : Int × Int :=
  (match var_by_id vs nid with
   | some v => rarity_rank_of_variant v
   | none => -1,
   pyIntOrNeg nid)

/-- Strict lexicographic comparison on the tie-break key (`Python tuple <`). -/
def keyLt (a b : Int × Int) : Bool :=
  a.1 < b.1 || (a.1 = b.1 && a.2 < b.2)

/-- Python `max(nxts, key=_key)`: the running best is replaced only on a
strictly greater key, so the first maximal candidate wins. -/
def pyMaxByKey (vs : List Variant) (h : String) (t : List String) : String :=
  t.foldl (fun b x => if keyLt (chain_key vs b) (chain_key vs x) then x else b) h

/-- All ids occurring in any variant's `to_ids`; every id the chain walk
can add to its visited set lies in this list. -/
def allToIds (vs : List Variant) : List String :=
  vs.foldr (fun v acc => v.to_ids ++ acc) []

/-- Fuel bound under which the `_chain_head` loop always terminates. -/
def chainFuel (vs : List Variant) : Nat :=
  (allToIds vs).length + 1

/-- The `_chain_head` loop body with explicit fuel: follow `to` links,
choosing the best candidate at forks, until a terminal node or a
revisited node (`seen` cycle guard). -/
def chain_head_fuel (vs : List Variant) : Nat → List String → String → Option String
  | 0, _, _ => none
  | fuel + 1, seen, cur =>
    match next_ids vs cur with
    | [] => some cur
    | nh :: nt =>
      if pyMaxByKey vs nh nt ∈ seen then some cur
      else chain_head_fuel vs fuel (pyMaxByKey vs nh nt :: seen) (pyMaxByKey vs nh nt)

/-- Source helper `_chain_head(fid)`; the fuel bound is proved
sufficient below (`chain_head_fuel_isSome`), so the fallback branch is
unreachable. -/
def chain_head (vs : List Variant) (fid : String) : String :=
  match chain_head_fuel vs (chainFuel vs) [] fid with
  | some r => r
  | none => fid

/-- Source flag `family_has_any_chain`: some variant declares an awakening link. -/
def family_has_any_chain (vs : List Variant) : Bool :=
  vs.any (fun v => !v.from_ids.isEmpty || !v.to_ids.isEmpty)

/-- The id `fid` as the annotation loop computes it (`str(form_id)` when present,
`None` otherwise), and the head guarded by `if fid` truthiness. -/
def headOf (vs : List Variant) (v : Variant) : Option String :=
  match v.form_id with
  | some f => if f ≠ "" then some (chain_head vs f) else none
  | none => none

/-- The per-variant annotation step of the merge: normalise the awakening
lists (identity here) and set `awaken_chain_head_id` /
`is_fully_awakened`. -/
def annotateVariant (vs : List Variant) (v : Variant) : Variant :=
  { v with
    awaken_chain_head_id := headOf vs v,
    is_fully_awakened :=
      if family_has_any_chain vs then decide (v.form_id = headOf vs v) else true }

/-- The annotation pass over the upserted variant list. -/
def annotate (vs : List Variant) : List Variant :=
  vs.map (annotateVariant vs)

/-- The seed structure written when no (readable) document exists yet. -/
def seedDoc (uf : UnitFields) : FamilyDoc :=
  { unit_id := uf.unit_id
    form_id := uf.form_id
    display_name := uf.display_name
    rarity := uf.rarity
    type_tag := uf.type_tag
    source_base_url := uf.source_base_url
    variants := []
    assets := []
    assets_index := [] }

/-- The document-level body of `merge_variant_into_unit_json` once a
current document is in hand. -/
def mergeCore (cur : FamilyDoc) (uf : UnitFields) (vr : Variant) : FamilyDoc :=
  { cur with
    display_name := refreshField cur.display_name uf.display_name
    rarity := refreshField cur.rarity uf.rarity
    type_tag := refreshField cur.type_tag uf.type_tag
    source_base_url := refreshField cur.source_base_url uf.source_base_url
    assets := pyUnionStr cur.assets uf.assets
    assets_index := merge_assets_index cur.assets_index uf.assets_index
    variants := annotate (upsertVariant vr cur.variants) }

/-- Source function `merge_variant_into_unit_json(folder, unit_fields,
variant_record)`, as a pure function of the current document state:
`none` stands for a missing, empty or unreadable `METADATA.json`, which
the source reseeds.  The category-registry side write is external to the
document and not part of the returned state. -/
def merge_variant_into_unit_json (current : Option FamilyDoc) (uf : UnitFields)
    (vr : Variant) : FamilyDoc :=
  mergeCore (match current with | some d => d | none => seedDoc uf) uf vr

/-- The two-variant cyclic family `1 → 2 → 1` used by the spec's cycle
example. -/
def cycleDoc : List Variant :=
  [{ key := "base", form_id := some "1", rarity := some "UR", rarity_rank := none,
     from_ids := [], to_ids := ["2"], awaken_chain_head_id := none,
     is_fully_awakened := false, payload := "" },
   { key := "form_2_base", form_id := some "2", rarity := some "UR", rarity_rank := none,
     from_ids := [], to_ids := ["1"], awaken_chain_head_id := none,
     is_fully_awakened := false, payload := "" }]

/-- A family document declaring an awakening target (`"2"`) that is not
present as a variant of the document. -/
def docWithExternalTarget : List Variant :=
  [{ key := "base", form_id := some "1", rarity := some "UR", rarity_rank := none,
     from_ids := [], to_ids := ["2"], awaken_chain_head_id := none,
     is_fully_awakened := false, payload := "" }]

/-- A concrete populated document and incoming unit fields for the C10
witness. -/
def sampleDoc : FamilyDoc :=
  { unit_id := some "1000010", form_id := some "1000010",
    display_name := some "Goku", rarity := some "UR", type_tag := some "AGL",
    source_base_url := some "https://dokkaninfo.com/cards/1000010",
    variants := [], assets := [], assets_index := [] }

def sampleUf : UnitFields :=
  { unit_id := some "1000010", form_id := some "1000010",
    display_name := some "Other Name", rarity := some "LR", type_tag := some "STR",
    source_base_url := some "https://dokkaninfo.com/cards/9999999",
    assets := [], assets_index := [] }

def sampleVr : Variant :=
  { key := "base", form_id := some "1000010", rarity := some "UR", rarity_rank := none,
    from_ids := [], to_ids := [], awaken_chain_head_id := none,
    is_fully_awakened := false, payload := "" }

/-- The three facts the second pass needs about a category already merged
once: the entry exists, it is sorted, and it covers the incoming paths. -/
def MergedCat (d : AIdx) (cat : String) (items : List AssetItem) : Prop :=
  ((d.find? (fun e => e.1 == cat)).isSome = true) ∧
  (catItems d cat).Pairwise (fun a b => itemLe a b) ∧
  ∀ it ∈ items, it.path ∈ (catItems d cat).map AssetItem.path

/-- The fields of a variant that the merge's annotation pass reads (it
only ever writes `awaken_chain_head_id` and `is_fully_awakened`). -/
structure VariantView where
  key : String
  form_id : Option String
  rarity : Option String
  rarity_rank : Option Int
  from_ids : List String
  to_ids : List String
deriving DecidableEq, Repr

def viewOf (v : Variant) : VariantView :=
  ⟨v.key, v.form_id, v.rarity, v.rarity_rank, v.from_ids, v.to_ids⟩

def hasFormIdView (x : VariantView) : Bool :=
  match x.form_id with
  | some s => s ≠ ""
  | none => false

def formIdStrView (x : VariantView) : String :=
  match x.form_id with
  | some s => s
  | none => ""

def rankView (x : VariantView) : Int :=
  match x.rarity_rank with
  | some n => n
  | none => RARITY_RANK (pyUpper (match x.rarity with | some r => r | none => ""))

/-! ## Theorems -/

theorem decimalVal_natDecimal (n : Nat) : decimalVal (natDecimal n) = n := by
  unfold natDecimal decimalVal
  by_cases h : n = 0
  · subst h; decide
  · simp only [h, if_false]
    have hlt : ∀ d ∈ Nat.digits 10 n, d < 10 := fun d hd =>
      Nat.digits_lt_base (by norm_num) hd
    have hmap : ((Nat.digits 10 n).reverse.map (fun d => Char.ofNat (48 + d))).map
        (fun c => c.toNat - 48) = (Nat.digits 10 n).reverse := by
      rw [List.map_map]
      have : ∀ d ∈ (Nat.digits 10 n).reverse,
          ((fun c => c.toNat - 48) ∘ fun d => Char.ofNat (48 + d)) d = id d := by
        intro d hd
        have hd10 : d < 10 := hlt d (List.mem_reverse.mp hd)
        interval_cases d <;> rfl
      rw [List.map_congr_left this, List.map_id]
    show Nat.ofDigits 10 ((((Nat.digits 10 n).reverse.map
        (fun d => Char.ofNat (48 + d))).map (fun c => c.toNat - 48)).reverse) = n
    rw [hmap, List.reverse_reverse, Nat.ofDigits_digits]

theorem natDecimal_injective : Function.Injective natDecimal := by
  intro m n h
  have := congrArg decimalVal h
  rwa [decimalVal_natDecimal, decimalVal_natDecimal] at this

theorem natDecimal_ne_empty (n : Nat) : natDecimal n ≠ "" := by
  unfold natDecimal
  by_cases h : n = 0
  · subst h; decide
  · simp only [h, if_false]
    intro hc
    have hnil : ((Nat.digits 10 n).reverse.map (fun d => Char.ofNat (48 + d))) = [] :=
      congrArg String.data hc
    have : Nat.digits 10 n = [] := by
      have := List.map_eq_nil_iff.mp hnil
      simpa using this
    exact (Nat.digits_ne_nil_iff_ne_zero.mpr h) this

/-- In a duplicate-free list, at most one element passes a filter of the
shape `x == a && c`. -/
theorem length_filter_beq_le_one {l : List Nat} (hl : l.Nodup) (a : Nat) (c : Bool) :
    (l.filter (fun x => x == a && c)).length ≤ 1 := by
  cases c
  · simp
  · have he : l.filter (fun x => x == a && true) = l.filter (fun x => x == a) := by
      simp [Bool.and_true]
    rw [he, ← List.countP_eq_length_filter, ← List.count_eq_countP]
    exact List.nodup_iff_count_le_one.mp hl a

/-- Every result of `discover_eza_steps_with_fallback` is a contiguous
range starting at 1. -/
theorem discover_eza_steps_with_fallback_is_range (p : Page) (rh : Option String) :
    ∃ m, discover_eza_steps_with_fallback p rh = List.range' 1 m := by
  unfold discover_eza_steps_with_fallback
  split
  · exact ⟨_, rfl⟩
  · split
    · exact ⟨0, rfl⟩
    · split
      · exact ⟨0, rfl⟩
      · split
        · exact ⟨_, rfl⟩
        · split
          · exact ⟨_, rfl⟩
          · exact ⟨_, rfl⟩

/-- C3 counterexample: on a page with no EZA evidence but a step-selector
dropdown, the discoverer used by the crawl pipeline
(`discover_eza_steps_on_page_soup`) returns the non-empty step list
`[1, 2]`, so the fail-closed property does not hold for it. -/
theorem no_evidence_pipeline_discoverer_not_empty :
    has_eza_evidence pageDropdownNoEvidence = false ∧
    discover_eza_steps_on_page_soup (some pageDropdownNoEvidence) none = ([1, 2], some 2) := by
  constructor
  · rfl
  · decide

/-- C3 (amended): the no-evidence fail-closed property holds for the
hard-evidence-gated discoverer `discover_eza_steps_safe` — it returns an
empty step list on every page without an EZA release-date block or EZA
stat columns, regardless of any step-selector or toggle markup — while
the discoverer the crawl pipeline uses
(`discover_eza_steps_on_page_soup`) has no such gate and can return a
non-empty step list on a no-evidence page (the counterexample). -/
theorem no_evidence_safe_discoverer_empty (p : Page) (rh : Option String)
    (h : has_eza_evidence p = false) :
    discover_eza_steps_safe p rh = [] := by
  unfold discover_eza_steps_safe
  rw [h]
  rfl

theorem no_evidence_safe_discoverer_empty_witness :
    discover_eza_steps_safe pageDropdownNoEvidence none = [] :=
  no_evidence_safe_discoverer_empty pageDropdownNoEvidence none (by rfl)

/-- C4 counterexample: for a UR family whose dropdown maximum is 4, the
pipeline discovers steps `1..4` and flags step 4 as super EZA
(`max ∈ {4, 8}`), although the UR rarity-specific cap is 8 — the flag is
not restricted to the rarity-specific cap. -/
theorem super_eza_flag_ignores_rarity_cap :
    discover_eza_steps_on_page_soup (some pageURDropdownMax4) (some "UR") =
      ([1, 2, 3, 4], some 4) ∧
    is_super_eza_flag true (some 4) (some 4) = true ∧
    super_eza_step_for_rarity (some "UR") = some 8 := by
  refine ⟨by decide, by decide, by decide⟩

/-- C4 (amended): whenever enhancement steps are discovered, they are
exactly the contiguous range `1..max`; at most one of them is flagged
`is_super_eza` against the discovered maximum, and a step is flagged only
when it equals that maximum and the maximum is 4 or 8 (the union of the
rarity caps, not necessarily the cap of this page's rarity). -/
theorem discovered_steps_contiguous_one_super (p : Page) (rh : Option String)
    (h : discover_eza_steps_with_fallback p rh ≠ []) :
    ∃ m, 1 ≤ m ∧ discover_eza_steps_with_fallback p rh = List.range' 1 m ∧
      ((List.range' 1 m).filter
        (fun st => is_super_eza_flag true (some st) (some m))).length ≤ 1 ∧
      (∀ st mx : Nat, is_super_eza_flag true (some st) (some mx) = true →
        st = mx ∧ (mx = 4 ∨ mx = 8)) := by
  obtain ⟨m, hm⟩ := discover_eza_steps_with_fallback_is_range p rh
  refine ⟨m, ?_, hm, ?_, ?_⟩
  · rcases Nat.eq_zero_or_pos m with h0 | h1
    · subst h0
      rw [hm] at h
      simp at h
    · exact h1
  · have : (fun st => is_super_eza_flag true (some st) (some m)) =
        (fun st => st == m && (m == 4 || m == 8)) := by
      funext st
      simp [is_super_eza_flag]
    rw [this]
    exact length_filter_beq_le_one (List.nodup_range' 1 m) m _
  · intro st mx hflag
    simp only [is_super_eza_flag, Bool.true_and, Bool.and_eq_true, beq_iff_eq,
      Bool.or_eq_true] at hflag
    exact ⟨hflag.1, hflag.2⟩

theorem discovered_steps_contiguous_one_super_witness :
    discover_eza_steps_with_fallback pageURDropdownMax4 (some "UR") ≠ [] ∧
    (∃ m, 1 ≤ m ∧
      discover_eza_steps_with_fallback pageURDropdownMax4 (some "UR") = List.range' 1 m ∧
      ((List.range' 1 m).filter
        (fun st => is_super_eza_flag true (some st) (some m))).length ≤ 1 ∧
      (∀ st mx : Nat, is_super_eza_flag true (some st) (some mx) = true →
        st = mx ∧ (mx = 4 ∨ mx = 8))) :=
  ⟨by decide, discovered_steps_contiguous_one_super pageURDropdownMax4 (some "UR") (by decide)⟩

/-! ## Variant-key shape facts (C9) -/

theorem str_data_inj {s t : String} (h : s.data = t.data) : s = t := by
  cases s; cases t; exact congrArg String.mk h

theorem str_append_left_cancel {a s t : String} (h : a ++ s = a ++ t) : s = t := by
  apply str_data_inj
  have hd := congrArg String.data h
  rw [String.data_append, String.data_append] at hd
  exact List.append_cancel_left hd

theorem str_ne_of_length_ne {s t : String} (h : s.length ≠ t.length) : s ≠ t :=
  fun he => h (congrArg String.length he)

theorem natDecimal_length_pos (n : Nat) : 1 ≤ (natDecimal n).length := by
  rcases Nat.eq_zero_or_pos (natDecimal n).length with h0 | h1
  · exfalso
    apply natDecimal_ne_empty n
    apply str_data_inj
    have : (natDecimal n).data.length = 0 := h0
    simpa using List.length_eq_zero.mp this
  · exact h1

theorem base_ne_eza_step (r : String) : "base" ≠ "eza_step_" ++ r := by
  apply str_ne_of_length_ne
  rw [String.length_append]
  have h1 : ("base" : String).length = 4 := rfl
  have h2 : ("eza_step_" : String).length = 9 := rfl
  omega

theorem eza_ne_eza_step (r : String) : "eza" ≠ "eza_step_" ++ r := by
  apply str_ne_of_length_ne
  rw [String.length_append]
  have h1 : ("eza" : String).length = 3 := rfl
  have h2 : ("eza_step_" : String).length = 9 := rfl
  omega

theorem ubase_ne_ueza_step (r : String) : "_base" ≠ "_eza_step_" ++ r := by
  apply str_ne_of_length_ne
  rw [String.length_append]
  have h1 : ("_base" : String).length = 5 := rfl
  have h2 : ("_eza_step_" : String).length = 10 := rfl
  omega

theorem ueza_ne_ueza_step (r : String) : "_eza" ≠ "_eza_step_" ++ r := by
  apply str_ne_of_length_ne
  rw [String.length_append]
  have h1 : ("_eza" : String).length = 4 := rfl
  have h2 : ("_eza_step_" : String).length = 10 := rfl
  omega

/-- C9 counterexample: `build_variant_key` (and the form variant) is not
injective over all input pairs — with `eza = false` every step value
collapses to the same `base` key. -/
theorem build_variant_key_not_injective :
    build_variant_key false (some 1) = build_variant_key false none ∧
    (some 1 : Option Nat) ≠ none ∧
    build_form_variant_key "1000011" false (some 1) =
      build_form_variant_key "1000011" false none := by
  refine ⟨rfl, by decide, rfl⟩

/-- C9 (amended): on the inputs the scraper actually constructs (a step is
only carried together with `eza = true`), key construction is injective,
both for `build_variant_key` and for `build_form_variant_key` at any fixed
form id; the key is `base` exactly when `eza` is false, and
`eza = true, step = None` yields the undocumented key shapes `eza` /
`form_<id>_eza`. -/
theorem build_variant_key_injective_on_used_inputs
    (e₁ e₂ : Bool) (s₁ s₂ : Option Nat)
    (h₁ : e₁ = false → s₁ = none) (h₂ : e₂ = false → s₂ = none) :
    (build_variant_key e₁ s₁ = build_variant_key e₂ s₂ ↔ e₁ = e₂ ∧ s₁ = s₂) ∧
    (∀ fid : String,
      build_form_variant_key fid e₁ s₁ = build_form_variant_key fid e₂ s₂ ↔
        e₁ = e₂ ∧ s₁ = s₂) ∧
    (build_variant_key e₁ s₁ = "base" ↔ e₁ = false) ∧
    build_variant_key true none = "eza" ∧
    (∀ fid : String, build_form_variant_key fid true none = "form_" ++ fid ++ "_eza") := by
  have plain : ∀ (a b : Bool) (u v : Option Nat), (a = false → u = none) →
      (b = false → v = none) →
      (build_variant_key a u = build_variant_key b v ↔ a = b ∧ u = v) := by
    intro a b u v ha hb
    constructor
    · intro h
      cases a <;> cases b
      · exact ⟨rfl, (ha rfl).trans (hb rfl).symm⟩
      · rw [ha rfl] at h
        cases v with
        | none => exact absurd h (by decide)
        | some n => exact absurd h (base_ne_eza_step (natDecimal n))
      · rw [hb rfl] at h
        cases u with
        | none => exact absurd h (by decide)
        | some n => exact absurd h.symm (base_ne_eza_step (natDecimal n))
      · refine ⟨rfl, ?_⟩
        cases u with
        | none =>
          cases v with
          | none => rfl
          | some n => exact absurd h (eza_ne_eza_step (natDecimal n))
        | some m =>
          cases v with
          | none => exact absurd h.symm (eza_ne_eza_step (natDecimal m))
          | some n =>
            have := str_append_left_cancel
              (a := "eza_step_") (s := natDecimal m) (t := natDecimal n) h
            exact congrArg some (natDecimal_injective this)
    · rintro ⟨rfl, rfl⟩
      rfl
  have formkey : ∀ (fid : String) (a : Bool) (u : Option Nat),
      build_form_variant_key fid a u =
        ("form_" ++ fid) ++ (if !a then "_base"
          else match u with
            | none => "_eza"
            | some s => "_eza_step_" ++ natDecimal s) := by
    intro fid a u
    cases a
    · simp [build_form_variant_key, String.append_assoc]
    · cases u
      · simp [build_form_variant_key, String.append_assoc]
      · simp [build_form_variant_key, String.append_assoc]
  have form : ∀ (fid : String) (a b : Bool) (u v : Option Nat), (a = false → u = none) →
      (b = false → v = none) →
      (build_form_variant_key fid a u = build_form_variant_key fid b v ↔ a = b ∧ u = v) := by
    intro fid a b u v ha hb
    constructor
    · intro h
      rw [formkey, formkey] at h
      have h' := str_append_left_cancel h
      cases a <;> cases b
      · exact ⟨rfl, (ha rfl).trans (hb rfl).symm⟩
      · rw [ha rfl] at h' ⊢
        cases v with
        | none => exact absurd h' (by decide)
        | some n => exact absurd h' (ubase_ne_ueza_step (natDecimal n))
      · rw [hb rfl] at h'
        cases u with
        | none => exact absurd h' (by decide)
        | some n => exact absurd h'.symm (ubase_ne_ueza_step (natDecimal n))
      · refine ⟨rfl, ?_⟩
        cases u with
        | none =>
          cases v with
          | none => rfl
          | some n => exact absurd h' (ueza_ne_ueza_step (natDecimal n))
        | some m =>
          cases v with
          | none => exact absurd h'.symm (ueza_ne_ueza_step (natDecimal m))
          | some n =>
            have := str_append_left_cancel
              (a := "_eza_step_") (s := natDecimal m) (t := natDecimal n) h'
            exact congrArg some (natDecimal_injective this)
    · rintro ⟨rfl, rfl⟩
      rfl
  refine ⟨plain e₁ e₂ s₁ s₂ h₁ h₂, fun fid => form fid e₁ e₂ s₁ s₂ h₁ h₂, ?_, rfl, ?_⟩
  · constructor
    · intro h
      cases e₁ with
      | false => rfl
      | true =>
        cases s₁ with
        | none => exact absurd h.symm (by decide)
        | some n => exact absurd h.symm (base_ne_eza_step (natDecimal n))
    · intro h
      subst h
      rfl
  · intro fid
    rfl

theorem build_variant_key_injective_on_used_inputs_witness :
    build_variant_key true (some 3) = build_variant_key true (some 3) ↔
      (true = true ∧ (some 3 : Option Nat) = some 3) :=
  (build_variant_key_injective_on_used_inputs true true (some 3) (some 3)
    (by intro h; cases h) (by intro h; cases h)).1

/-- Behaviour of the `max(…, key=len)` fold: the result is either the
seed (and nothing is longer), or the first element strictly longer than
everything before it and at least as long as everything else. -/
theorem foldl_maxlen_spec (l : List String) (b : String) :
    (l.foldl (fun b x => if b.length < x.length then x else b) b = b ∧
      ∀ d ∈ l, d.length ≤ b.length) ∨
    (∃ pre suf, l = pre ++ (l.foldl (fun b x => if b.length < x.length then x else b) b) :: suf ∧
      b.length < (l.foldl (fun b x => if b.length < x.length then x else b) b).length ∧
      (∀ d ∈ pre, d.length < (l.foldl (fun b x => if b.length < x.length then x else b) b).length) ∧
      (∀ d ∈ l, d.length ≤ (l.foldl (fun b x => if b.length < x.length then x else b) b).length)) := by
  induction l generalizing b with
  | nil => exact Or.inl ⟨rfl, by simp⟩
  | cons c rest ih =>
    rw [List.foldl_cons]
    by_cases hc : b.length < c.length
    · rw [if_pos hc]
      rcases ih c with ⟨heq, hall⟩ | ⟨pre', suf', hsplit, hlt, hpre, hall⟩
      · refine Or.inr ⟨[], rest, ?_, ?_, by simp, ?_⟩
        · rw [heq]; simp
        · rw [heq]; exact hc
        · intro d hd
          rw [heq]
          rcases List.mem_cons.mp hd with rfl | hd'
          · exact le_refl _
          · exact hall d hd'
      · refine Or.inr ⟨c :: pre', suf', ?_, ?_, ?_, ?_⟩
        · rw [List.cons_append]; exact congrArg (List.cons c) hsplit
        · exact hc.trans hlt
        · intro d hd
          rcases List.mem_cons.mp hd with rfl | hd'
          · exact hlt
          · exact hpre d hd'
        · intro d hd
          rcases List.mem_cons.mp hd with rfl | hd'
          · exact le_of_lt hlt
          · exact hall d hd'
    · rw [if_neg hc]
      have hcb : c.length ≤ b.length := Nat.le_of_not_lt hc
      rcases ih b with ⟨heq, hall⟩ | ⟨pre', suf', hsplit, hlt, hpre, hall⟩
      · refine Or.inl ⟨heq, ?_⟩
        intro d hd
        rcases List.mem_cons.mp hd with rfl | hd'
        · exact hcb
        · exact hall d hd'
      · refine Or.inr ⟨c :: pre', suf', ?_, hlt, ?_, ?_⟩
        · rw [List.cons_append]; exact congrArg (List.cons c) hsplit
        · intro d hd
          rcases List.mem_cons.mp hd with rfl | hd'
          · exact Nat.lt_of_le_of_lt hcb hlt
          · exact hpre d hd'
        · intro d hd
          rcases List.mem_cons.mp hd with rfl | hd'
          · exact le_of_lt (Nat.lt_of_le_of_lt hcb hlt)
          · exact hall d hd'

/-- Applying `pyMaxByLen` to a non-empty list returns the first longest element. -/
theorem pyMaxByLen_first_longest {l : List String} (h : l ≠ []) :
    ∃ c pre suf, pyMaxByLen l = some c ∧ l = pre ++ c :: suf ∧
      (∀ d ∈ pre, d.length < c.length) ∧ ∀ d ∈ l, d.length ≤ c.length := by
  cases l with
  | nil => exact absurd rfl h
  | cons hd t =>
    rcases foldl_maxlen_spec t hd with ⟨heq, hall⟩ | ⟨pre', suf', hsplit, hlt, hpre, hall⟩
    · refine ⟨hd, [], t, ?_, by simp, by simp, ?_⟩
      · simp [pyMaxByLen, heq]
      · intro d hd'
        rcases List.mem_cons.mp hd' with rfl | hd''
        · exact le_refl _
        · exact hall d hd''
    · refine ⟨_, hd :: pre', suf', rfl, ?_, ?_, ?_⟩
      · rw [List.cons_append]; exact congrArg (List.cons hd) hsplit
      · intro d hd'
        rcases List.mem_cons.mp hd' with rfl | hd''
        · exact hlt
        · exact hpre d hd''
      · intro d hd'
        rcases List.mem_cons.mp hd' with rfl | hd''
        · exact le_of_lt hlt
        · exact hall d hd''

theorem mem_dropWhile_of_not {α} (p : α → Bool) {x : α} :
    ∀ {l : List α}, x ∈ l → p x = false → x ∈ l.dropWhile p := by
  intro l
  induction l with
  | nil => intro h _; cases h
  | cons y rest ih =>
    intro hmem hx
    by_cases hy : p y = true
    · rw [List.dropWhile_cons_of_pos hy]
      rcases List.mem_cons.mp hmem with rfl | hmem'
      · rw [hx] at hy; cases hy
      · exact ih hmem' hx
    · rw [List.dropWhile_cons_of_neg hy]
      exact hmem

theorem mem_strip_of_mem_nonws {l : List Char} {x : Char}
    (h : x ∈ l) (hx : isWS x = false) : x ∈ (pyStrip ⟨l⟩).data := by
  unfold pyStrip
  refine List.mem_reverse.mpr (mem_dropWhile_of_not isWS ?_ hx)
  exact List.mem_reverse.mpr (mem_dropWhile_of_not isWS h hx)

theorem strip_ne_empty_of_mem_nonws {l : List Char} {x : Char}
    (h : x ∈ l) (hx : isWS x = false) : pyStrip ⟨l⟩ ≠ "" := by
  intro he
  have := mem_strip_of_mem_nonws h hx
  rw [he] at this
  cases this

theorem mem_condenseAux {x : Char} (hx : isWS x = false) :
    ∀ (b : Bool) {l : List Char}, x ∈ l → x ∈ condenseAux b l := by
  intro b l
  induction l generalizing b with
  | nil => intro h; cases h
  | cons c rest ih =>
    intro hmem
    unfold condenseAux
    by_cases hc : isWS c = true
    · rw [hc]
      have hx' : x ∈ rest := by
        rcases List.mem_cons.mp hmem with rfl | hmem'
        · rw [hx] at hc; cases hc
        · exact hmem'
      simp only [if_true]
      cases b with
      | true => exact ih true hx'
      | false => exact List.mem_cons_of_mem _ (ih true hx')
    · rw [Bool.not_eq_true] at hc
      rw [hc]
      simp only [Bool.false_eq_true, if_false]
      rcases List.mem_cons.mp hmem with rfl | hmem'
      · exact List.mem_cons_self _ _
      · exact List.mem_cons_of_mem _ (ih false hmem')

/-- A non-empty stripped string contains a non-whitespace character. -/
theorem exists_nonws_of_strip_ne {y : List Char} (h : pyStrip ⟨y⟩ ≠ "") :
    ∃ x ∈ (pyStrip ⟨y⟩).data, isWS x = false := by
  set e := (y.dropWhile isWS).reverse.dropWhile isWS with he
  have hdata : (pyStrip ⟨y⟩).data = e.reverse := rfl
  have hne : e ≠ [] := by
    intro h0
    apply h
    apply str_data_inj
    rw [hdata, h0]
    rfl
  have hlen : 0 < e.length := List.length_pos.mpr hne
  have hhead := List.dropWhile_get_zero_not (p := isWS) ((y.dropWhile isWS).reverse)
    (by rw [← he]; exact hlen)
  refine ⟨e.get ⟨0, hlen⟩, ?_, ?_⟩
  · rw [hdata]
    exact List.mem_reverse.mpr (List.get_mem e 0 hlen)
  · rw [Bool.not_eq_true] at hhead
    exact hhead

/-- Every clause produced by the splitter condenses to a non-empty
string. -/
theorem clause_condense_ne_empty {s c : String} (h : c ∈ pyClauses s) :
    condense_spaces c ≠ "" := by
  have hmem := List.mem_filter.mp h
  obtain ⟨piece, _, hc⟩ := List.mem_map.mp hmem.1
  have hcne : c ≠ "" := by simpa using hmem.2
  obtain ⟨x, hxmem, hxws⟩ := exists_nonws_of_strip_ne (y := piece) (by rw [hc]; exact hcne)
  rw [hc] at hxmem
  have hxc : x ∈ condenseAux false c.data := mem_condenseAux hxws false hxmem
  exact strip_ne_empty_of_mem_nonws hxc hxws

/-- C7 counterexample: two transform clauses of equal maximal length, the
second containing the trigger keyword "when"; `pick_longest` still returns
the first clause, so the keyword tie-break the claim describes does not
exist. -/
theorem transform_tie_goes_to_first_not_keyword :
    transform_clauses "Transforms abcd; Transforms when" =
      ["Transforms abcd", "Transforms when"] ∧
    ("Transforms abcd" : String).length = ("Transforms when" : String).length ∧
    containsSubstr "Transforms when" "when" = true ∧
    containsSubstr "Transforms abcd" "when" = false ∧
    (extract_transform_and_exchange "Transforms abcd; Transforms when").2.1.condition =
      some "Transforms abcd" := by
  refine ⟨by decide, by decide, by decide, by decide, by decide⟩

/-- C7 (amended): for each kind the chosen condition is the first longest
candidate clause (ties go to the earlier clause, with no keyword
preference), and every clause classified as transform or exchange is
removed from the general effect's kept clauses. -/
theorem transform_exchange_longest_clause_wins (s : String)
    (hT : transform_clauses s ≠ []) :
    (∃ c pre suf, transform_clauses s = pre ++ c :: suf ∧
      (extract_transform_and_exchange s).2.1.condition = some (condense_spaces c) ∧
      (∀ d ∈ pre, d.length < c.length) ∧
      (∀ d ∈ transform_clauses s, d.length ≤ c.length)) ∧
    (∀ c ∈ pyClauses s, (isExchangeClause c || isTransformText c) = true →
      c ∉ keep_clauses s) ∧
    (exchange_clauses s ≠ [] →
      ∃ c pre suf, exchange_clauses s = pre ++ c :: suf ∧
        (extract_transform_and_exchange s).2.2.condition = some (condense_spaces c) ∧
        (∀ d ∈ pre, d.length < c.length) ∧
        (∀ d ∈ exchange_clauses s, d.length ≤ c.length)) := by
  have hs : s ≠ "" := by
    intro h0
    apply hT
    rw [h0]
    decide
  refine ⟨?_, ?_, ?_⟩
  · obtain ⟨c, pre, suf, hmax, hsplit, hpre, hall⟩ := pyMaxByLen_first_longest hT
    refine ⟨c, pre, suf, hsplit, ?_, hpre, hall⟩
    have hcmem : c ∈ transform_clauses s := by
      rw [hsplit]
      exact List.mem_append_right _ (List.mem_cons_self _ _)
    have hcP : c ∈ pyClauses s := List.mem_of_mem_filter hcmem
    have hne := clause_condense_ne_empty hcP
    unfold extract_transform_and_exchange
    rw [if_neg hs]
    simp only [hmax, Option.map_some']
    simp only [orNone, if_neg hne]
  · intro c _ hmatch hkeep
    have := (List.mem_filter.mp hkeep).2
    rcases Bool.or_eq_true_iff.mp hmatch with hx | ht
    · simp [hx] at this
    · simp [ht] at this
  · intro hE
    obtain ⟨c, pre, suf, hmax, hsplit, hpre, hall⟩ := pyMaxByLen_first_longest hE
    refine ⟨c, pre, suf, hsplit, ?_, hpre, hall⟩
    have hcmem : c ∈ exchange_clauses s := by
      rw [hsplit]
      exact List.mem_append_right _ (List.mem_cons_self _ _)
    have hcP : c ∈ pyClauses s := List.mem_of_mem_filter hcmem
    have hne := clause_condense_ne_empty hcP
    unfold extract_transform_and_exchange
    rw [if_neg hs]
    simp only [hmax, Option.map_some']
    simp only [orNone, if_neg hne]

theorem transform_exchange_longest_clause_wins_witness :
    transform_clauses "Transforms abcd; Transforms when" ≠ [] ∧
    (∃ c pre suf, transform_clauses "Transforms abcd; Transforms when" = pre ++ c :: suf ∧
      (extract_transform_and_exchange "Transforms abcd; Transforms when").2.1.condition =
        some (condense_spaces c) ∧
      (∀ d ∈ pre, d.length < c.length) ∧
      (∀ d ∈ transform_clauses "Transforms abcd; Transforms when", d.length ≤ c.length)) :=
  ⟨by decide,
    (transform_exchange_longest_clause_wins "Transforms abcd; Transforms when" (by decide)).1⟩

/-- Tail of a same-context run renders without any context prefix. -/
theorem renderLines_run_tail (c : String) (l : List PassiveLine)
    (h : ∀ it ∈ l, it.context = some c) :
    renderLines (some c) l = l.map lineSeg := by
  induction l with
  | nil => rfl
  | cons it rest ih =>
    have hit : it.context = some c := h it (List.mem_cons_self _ _)
    unfold renderLines
    rw [if_pos hit]
    rw [ih (fun j hj => h j (List.mem_cons_of_mem _ hj))]
    rfl

/-! ## C8: context printed once per contiguous run -/

/-- C8: on the spec's fixture the renderer produces `"A: x; y; B: z"`
(label "A" exactly once, followed by both texts, "B" exactly once); and in
general the first line of a same-context run carries the `ctx: ` prefix
while every later line of the run renders bare. -/
theorem render_context_once_per_run :
    render_passive_effect_with_markers
      [⟨some "x", some "A", false, false⟩, ⟨some "y", some "A", false, false⟩,
       ⟨some "z", some "B", false, false⟩] = "A: x; y; B: z" ∧
    ("A: x; y; B: z" : String).data.count 'A' = 1 ∧
    ("A: x; y; B: z" : String).data.count 'B' = 1 ∧
    (∀ (c : String) (last : Option String) (it : PassiveLine) (rest : List PassiveLine),
      c ≠ "" → last ≠ some c → it.context = some c →
      (∀ j ∈ rest, j.context = some c) →
      renderLines last (it :: rest) = (c ++ ": " ++ lineSeg it) :: rest.map lineSeg) := by
  refine ⟨by decide, by decide, by decide, ?_⟩
  intro c last it rest hc hlast hctx hrest
  unfold renderLines
  rw [hctx, if_neg (fun h => hlast h.symm), renderLines_run_tail c rest hrest]
  dsimp only
  rw [if_neg hc]

theorem render_context_once_per_run_witness :
    renderLines none
      [⟨some "x", some "A", false, false⟩, ⟨some "y", some "A", false, false⟩] =
      ("A" ++ ": " ++ lineSeg ⟨some "x", some "A", false, false⟩) ::
        [(⟨some "y", some "A", false, false⟩ : PassiveLine)].map lineSeg :=
  render_context_once_per_run.2.2.2 "A" none ⟨some "x", some "A", false, false⟩
    [⟨some "y", some "A", false, false⟩] (by decide) (by decide) rfl (by decide)

/-! ## C5 / C6: awakening chain-head resolution -/

theorem mem_allToIds {vs : List Variant} {v : Variant} {x : String}
    (hv : v ∈ vs) (hx : x ∈ v.to_ids) : x ∈ allToIds vs := by
  induction vs with
  | nil => cases hv
  | cons w rest ih =>
    have : allToIds (w :: rest) = w.to_ids ++ allToIds rest := rfl
    rw [this]
    rcases List.mem_cons.mp hv with rfl | hv'
    · exact List.mem_append_left _ hx
    · exact List.mem_append_right _ (ih hv')

theorem var_by_id_mem {vs : List Variant} {fid : String} {v : Variant}
    (h : var_by_id vs fid = some v) : v ∈ vs :=
  List.mem_of_mem_filter (List.mem_of_getLast?_eq_some h)

theorem next_ids_subset_allToIds (vs : List Variant) (cur : String) :
    ∀ x ∈ next_ids vs cur, x ∈ allToIds vs := by
  intro x hx
  unfold next_ids at hx
  cases hv : var_by_id vs cur with
  | none => rw [hv] at hx; simp only at hx; cases hx
  | some v =>
    rw [hv] at hx
    simp only at hx
    have hvmem := var_by_id_mem hv
    by_cases hf : v.to_ids.filter (fun i => (var_by_id vs i).isSome) ≠ []
    · rw [if_pos hf] at hx
      exact mem_allToIds hvmem (List.mem_of_mem_filter hx)
    · rw [if_neg hf] at hx
      exact mem_allToIds hvmem hx

theorem foldl_choice_mem {α : Type} (f : α → α → α)
    (hf : ∀ b x, f b x = b ∨ f b x = x) :
    ∀ (t : List α) (b : α), t.foldl f b = b ∨ t.foldl f b ∈ t := by
  intro t
  induction t with
  | nil => intro b; exact Or.inl rfl
  | cons x rest ih =>
    intro b
    rw [List.foldl_cons]
    rcases ih (f b x) with h | h
    · rcases hf b x with hb | hx
      · rw [hb] at h ⊢
        exact Or.inl h
      · rw [hx] at h ⊢
        refine Or.inr ?_
        rw [h]
        exact List.mem_cons_self _ _
    · exact Or.inr (List.mem_cons_of_mem _ h)

theorem pyMaxByKey_mem (vs : List Variant) (h : String) (t : List String) :
    pyMaxByKey vs h t ∈ h :: t := by
  unfold pyMaxByKey
  have hf : ∀ b x : String,
      (if keyLt (chain_key vs b) (chain_key vs x) then x else b) = b ∨
      (if keyLt (chain_key vs b) (chain_key vs x) then x else b) = x := by
    intro b x
    by_cases hk : keyLt (chain_key vs b) (chain_key vs x) = true
    · rw [if_pos hk]; exact Or.inr rfl
    · rw [if_neg hk]; exact Or.inl rfl
  rcases foldl_choice_mem
      (fun b x => if keyLt (chain_key vs b) (chain_key vs x) then x else b) hf t h with he | hm
  · rw [he]; exact List.mem_cons_self _ _
  · exact List.mem_cons_of_mem _ hm

theorem nodup_subset_length_le {seen l : List String}
    (hn : seen.Nodup) (hs : ∀ x ∈ seen, x ∈ l) : seen.length ≤ l.length := by
  have h1 : seen.toFinset.card = seen.length := List.toFinset_card_of_nodup hn
  have h2 : seen.toFinset ⊆ l.toFinset := by
    intro a ha
    exact List.mem_toFinset.mpr (hs a (List.mem_toFinset.mp ha))
  calc seen.length = seen.toFinset.card := h1.symm
    _ ≤ l.toFinset.card := Finset.card_le_card h2
    _ ≤ l.length := List.toFinset_card_le l

/-- The `_chain_head` loop returns within the fuel bound: every iteration
either stops or adds a fresh id (drawn from the finitely many declared
`to_ids`) to the visited set. -/
theorem chain_head_fuel_isSome (vs : List Variant) :
    ∀ (fuel : Nat) (seen : List String) (cur : String), seen.Nodup →
      (∀ x ∈ seen, x ∈ allToIds vs) →
      (allToIds vs).length + 1 ≤ fuel + seen.length →
      (chain_head_fuel vs fuel seen cur).isSome = true := by
  intro fuel
  induction fuel with
  | zero =>
    intro seen cur hn hsub hlen
    exfalso
    have := nodup_subset_length_le hn hsub
    omega
  | succ fuel ih =>
    intro seen cur hn hsub hlen
    unfold chain_head_fuel
    cases hnx : next_ids vs cur with
    | nil => simp only [hnx, Option.isSome_some]
    | cons nh nt =>
      simp only [hnx]
      by_cases hin : pyMaxByKey vs nh nt ∈ seen
      · rw [if_pos hin]; rfl
      · rw [if_neg hin]
        have hmem : pyMaxByKey vs nh nt ∈ allToIds vs := by
          apply next_ids_subset_allToIds vs cur
          rw [hnx]
          exact pyMaxByKey_mem vs nh nt
        apply ih
        · exact List.nodup_cons.mpr ⟨hin, hn⟩
        · intro x hx
          rcases List.mem_cons.mp hx with rfl | hx'
          · exact hmem
          · exact hsub x hx'
        · simp only [List.length_cons]
          omega

/-- C5: chain-head resolution terminates on every family document and
every starting id — the fuelled loop always returns within its bound, and
`chain_head` returns that id; in particular both nodes of the cyclic
family `1 → 2 → 1` resolve. -/
theorem chain_head_terminates (vs : List Variant) (fid : String) :
    ((chain_head_fuel vs (chainFuel vs) [] fid).isSome = true ∧
      chain_head_fuel vs (chainFuel vs) [] fid = some (chain_head vs fid)) ∧
    (chain_head cycleDoc "1" = "1" ∧ chain_head cycleDoc "2" = "2") := by
  have hsome : (chain_head_fuel vs (chainFuel vs) [] fid).isSome = true := by
    apply chain_head_fuel_isSome
    · exact List.nodup_nil
    · intro x hx; cases hx
    · simp [chainFuel]
  refine ⟨⟨hsome, ?_⟩, by decide, by decide⟩
  obtain ⟨r, hr⟩ := Option.isSome_iff_exists.mp hsome
  rw [hr]
  unfold chain_head
  rw [hr]

/-- C6 counterexample: a `to_id` with no corresponding variant in the
document is still followed when no declared target is internal — the
chain head resolves to the external id `"2"`. -/
theorem external_to_id_followed :
    var_by_id docWithExternalTarget "2" = none ∧
    next_ids docWithExternalTarget "1" = ["2"] ∧
    chain_head docWithExternalTarget "1" = "2" := by
  refine ⟨by decide, by decide, by decide⟩

/-- C6 (amended): the traversal prefers edges whose targets are variants
of the same document — when at least one declared `to_id` is present, the
followed edge set is exactly the internal restriction (every followed id
resolves in the document); but when no declared target is internal, the
raw external `to_ids` are followed as they stand. -/
theorem next_ids_internal_restriction (vs : List Variant) (fid : String) :
    (var_by_id vs fid = none → next_ids vs fid = []) ∧
    (∀ v, var_by_id vs fid = some v →
      (v.to_ids.filter (fun i => (var_by_id vs i).isSome) ≠ [] →
        next_ids vs fid = v.to_ids.filter (fun i => (var_by_id vs i).isSome) ∧
        ∀ n ∈ next_ids vs fid, (var_by_id vs n).isSome = true) ∧
      (v.to_ids.filter (fun i => (var_by_id vs i).isSome) = [] →
        next_ids vs fid = v.to_ids)) := by
  constructor
  · intro h
    unfold next_ids
    rw [h]
  · intro v hv
    constructor
    · intro hne
      have heq : next_ids vs fid = v.to_ids.filter (fun i => (var_by_id vs i).isSome) := by
        unfold next_ids
        rw [hv]
        simp only [if_pos hne]
      refine ⟨heq, ?_⟩
      intro n hn
      rw [heq] at hn
      simpa using List.of_mem_filter hn
    · intro hnil
      simp [next_ids, hv, hnil]

theorem next_ids_internal_restriction_witness :
    next_ids cycleDoc "1" = (["2"].filter (fun i => (var_by_id cycleDoc i).isSome)) ∧
    ∀ n ∈ next_ids cycleDoc "1", (var_by_id cycleDoc n).isSome = true :=
  ((next_ids_internal_restriction cycleDoc "1").2
      { key := "base", form_id := some "1", rarity := some "UR", rarity_rank := none,
        from_ids := [], to_ids := ["2"], awaken_chain_head_id := none,
        is_fully_awakened := false, payload := "" }
      (by decide)).1 (by decide)

/-! ## C10: non-empty top-level fields are never overwritten -/

theorem refreshField_keep {cur incoming : Option String}
    (h : pyFalsyStr cur = false) : refreshField cur incoming = cur := by
  unfold refreshField
  rw [h]
  rfl

theorem refreshField_fill {cur incoming : Option String}
    (h1 : pyFalsyStr cur = true) (h2 : pyFalsyStr incoming = false) :
    refreshField cur incoming = incoming := by
  unfold refreshField
  rw [h1, h2]
  rfl

/-- C10: merging never overwrites a non-empty `display_name`, `rarity`,
`type` or `source_base_url`, and fills an empty one only from a non-empty
incoming unit field. -/
theorem merge_refreshes_only_empty_fields (d : FamilyDoc) (uf : UnitFields) (vr : Variant) :
    (pyFalsyStr d.display_name = false →
      (merge_variant_into_unit_json (some d) uf vr).display_name = d.display_name) ∧
    (pyFalsyStr d.rarity = false →
      (merge_variant_into_unit_json (some d) uf vr).rarity = d.rarity) ∧
    (pyFalsyStr d.type_tag = false →
      (merge_variant_into_unit_json (some d) uf vr).type_tag = d.type_tag) ∧
    (pyFalsyStr d.source_base_url = false →
      (merge_variant_into_unit_json (some d) uf vr).source_base_url = d.source_base_url) ∧
    (pyFalsyStr d.display_name = true → pyFalsyStr uf.display_name = false →
      (merge_variant_into_unit_json (some d) uf vr).display_name = uf.display_name) ∧
    (pyFalsyStr d.rarity = true → pyFalsyStr uf.rarity = false →
      (merge_variant_into_unit_json (some d) uf vr).rarity = uf.rarity) ∧
    (pyFalsyStr d.type_tag = true → pyFalsyStr uf.type_tag = false →
      (merge_variant_into_unit_json (some d) uf vr).type_tag = uf.type_tag) ∧
    (pyFalsyStr d.source_base_url = true → pyFalsyStr uf.source_base_url = false →
      (merge_variant_into_unit_json (some d) uf vr).source_base_url = uf.source_base_url) := by
  refine ⟨fun h => refreshField_keep h, fun h => refreshField_keep h,
    fun h => refreshField_keep h, fun h => refreshField_keep h,
    fun h1 h2 => refreshField_fill h1 h2, fun h1 h2 => refreshField_fill h1 h2,
    fun h1 h2 => refreshField_fill h1 h2, fun h1 h2 => refreshField_fill h1 h2⟩

theorem merge_refreshes_only_empty_fields_witness :
    (merge_variant_into_unit_json (some sampleDoc) sampleUf sampleVr).display_name =
      sampleDoc.display_name :=
  (merge_refreshes_only_empty_fields sampleDoc sampleUf sampleVr).1 (by decide)

/-! ## C2: key uniqueness of the variant list -/

theorem upsert_keys_mem {vr : Variant} :
    ∀ {vs : List Variant} {k : String}, k ∈ (upsertVariant vr vs).map Variant.key →
      k ∈ vs.map Variant.key ∨ k = vr.key := by
  intro vs
  induction vs with
  | nil =>
    intro k hk
    rcases List.mem_map.mp hk with ⟨x, hx, hkx⟩
    rcases List.mem_singleton.mp hx with rfl
    exact Or.inr hkx.symm
  | cons v rest ih =>
    intro k hk
    unfold upsertVariant at hk
    by_cases he : v.key = vr.key
    · rw [if_pos he] at hk
      rcases List.mem_map.mp hk with ⟨x, hx, hkx⟩
      rcases List.mem_cons.mp hx with rfl | hx'
      · exact Or.inr hkx.symm
      · exact Or.inl (List.mem_map.mpr ⟨x, List.mem_cons_of_mem _ hx', hkx⟩)
    · rw [if_neg he] at hk
      rcases List.mem_map.mp hk with ⟨x, hx, hkx⟩
      rcases List.mem_cons.mp hx with rfl | hx'
      · exact Or.inl (List.mem_map.mpr ⟨x, List.mem_cons_self _ _, hkx⟩)
      · rcases ih (List.mem_map.mpr ⟨x, hx', hkx⟩) with h | h
        · exact Or.inl (List.mem_map.mpr (by
            rcases List.mem_map.mp h with ⟨y, hy, hky⟩
            exact ⟨y, List.mem_cons_of_mem _ hy, hky⟩))
        · exact Or.inr h

theorem upsert_keys_nodup {vr : Variant} :
    ∀ {vs : List Variant}, (vs.map Variant.key).Nodup →
      ((upsertVariant vr vs).map Variant.key).Nodup := by
  intro vs
  induction vs with
  | nil => intro _; simp [upsertVariant]
  | cons v rest ih =>
    intro h
    rw [List.map_cons, List.nodup_cons] at h
    unfold upsertVariant
    by_cases he : v.key = vr.key
    · rw [if_pos he]
      rw [List.map_cons, List.nodup_cons]
      exact ⟨by rw [← he]; exact h.1, h.2⟩
    · rw [if_neg he]
      rw [List.map_cons, List.nodup_cons]
      refine ⟨?_, ih h.2⟩
      intro hmem
      rcases upsert_keys_mem hmem with hc | hc
      · exact h.1 hc
      · exact he hc

theorem annotate_keys (vs : List Variant) :
    (annotate vs).map Variant.key = vs.map Variant.key := by
  unfold annotate
  rw [List.map_map]
  rfl

/-- C2: starting from any document with no variants, any sequence of
merges yields a document whose variant keys are pairwise distinct — each
merge replaces the entry with a matching key or appends a fresh key. -/
theorem merge_sequence_keys_unique (start : FamilyDoc) (h : start.variants = [])
    (ops : List (UnitFields × Variant)) :
    (((ops.foldl (fun d p => merge_variant_into_unit_json (some d) p.1 p.2)
      start).variants).map Variant.key).Nodup := by
  have main : ∀ (l : List (UnitFields × Variant)) (d : FamilyDoc),
      (d.variants.map Variant.key).Nodup →
      (((l.foldl (fun d p => merge_variant_into_unit_json (some d) p.1 p.2)
        d).variants).map Variant.key).Nodup := by
    intro l
    induction l with
    | nil => intro d hd; exact hd
    | cons p rest ih =>
      intro d hd
      rw [List.foldl_cons]
      apply ih
      show (((mergeCore d p.1 p.2).variants).map Variant.key).Nodup
      have : (mergeCore d p.1 p.2).variants = annotate (upsertVariant p.2 d.variants) := rfl
      rw [this, annotate_keys]
      exact upsert_keys_nodup hd
  apply main
  rw [h]
  exact List.nodup_nil

theorem merge_sequence_keys_unique_witness :
    ((([((sampleUf, sampleVr) : UnitFields × Variant)].foldl
      (fun d p => merge_variant_into_unit_json (some d) p.1 p.2)
      (seedDoc sampleUf)).variants).map Variant.key).Nodup :=
  merge_sequence_keys_unique (seedDoc sampleUf) rfl [(sampleUf, sampleVr)]

/-! ## C1: merging the same variant twice equals merging it once -/

theorem refreshField_idem (cur incoming : Option String) :
    refreshField (refreshField cur incoming) incoming = refreshField cur incoming := by
  unfold refreshField
  by_cases h : (pyFalsyStr cur && !pyFalsyStr incoming) = true
  · rw [if_pos h]
    have h2 : pyFalsyStr incoming = false := by
      rcases Bool.and_eq_true_iff.mp h with ⟨_, hni⟩
      simpa using hni
    rw [h2]
    rfl
  · rw [if_neg h, if_neg h]

theorem unionAux_keeps_out {x : String} :
    ∀ (b seen out : List String), x ∈ out → x ∈ unionAuxStr seen out b := by
  intro b
  induction b with
  | nil => intro seen out h; exact h
  | cons y rest ih =>
    intro seen out h
    unfold unionAuxStr
    by_cases hy : y ∈ seen
    · rw [if_pos hy]
      exact ih seen out h
    · rw [if_neg hy]
      exact ih _ _ (List.mem_append_left _ h)

theorem unionAux_mem_right {x : String} :
    ∀ (b seen out : List String), (∀ z ∈ seen, z ∈ out) → x ∈ b →
      x ∈ unionAuxStr seen out b := by
  intro b
  induction b with
  | nil => intro seen out _ h; cases h
  | cons y rest ih =>
    intro seen out hinv hx
    unfold unionAuxStr
    by_cases hy : y ∈ seen
    · rw [if_pos hy]
      rcases List.mem_cons.mp hx with rfl | hx'
      · exact unionAux_keeps_out rest seen out (hinv x hy)
      · exact ih seen out hinv hx'
    · rw [if_neg hy]
      have hinv' : ∀ z ∈ y :: seen, z ∈ out ++ [y] := by
        intro z hz
        rcases List.mem_cons.mp hz with rfl | hz'
        · exact List.mem_append_right _ (List.mem_singleton.mpr rfl)
        · exact List.mem_append_left _ (hinv z hz')
      rcases List.mem_cons.mp hx with rfl | hx'
      · exact unionAux_keeps_out rest _ _ (List.mem_append_right _ (List.mem_singleton.mpr rfl))
      · exact ih _ _ hinv' hx'

theorem unionAux_stable :
    ∀ (b seen out : List String), (∀ z ∈ b, z ∈ seen) → unionAuxStr seen out b = out := by
  intro b
  induction b with
  | nil => intro seen out _; rfl
  | cons y rest ih =>
    intro seen out h
    unfold unionAuxStr
    rw [if_pos (h y (List.mem_cons_self _ _))]
    exact ih seen out (fun z hz => h z (List.mem_cons_of_mem _ hz))

theorem pyUnionStr_idem (a b : List String) :
    pyUnionStr (pyUnionStr a b) b = pyUnionStr a b := by
  apply unionAux_stable
  intro z hz
  exact unionAux_mem_right b a a (fun _ h => h) hz

theorem aidxSet_find_same (d : AIdx) (cat : String) (its : List AssetItem) :
    (aidxSet d cat its).find? (fun e => e.1 == cat) = some (cat, its) := by
  induction d with
  | nil => simp [aidxSet, List.find?]
  | cons e rest ih =>
    unfold aidxSet
    by_cases he : e.1 = cat
    · rw [if_pos he]
      simp [List.find?]
    · rw [if_neg he]
      rw [List.find?_cons_of_neg _ (by simpa using he)]
      exact ih

theorem aidxSet_find_other (d : AIdx) (cat : String) (its : List AssetItem)
    (c : String) (hc : c ≠ cat) :
    (aidxSet d cat its).find? (fun e => e.1 == c) = d.find? (fun e => e.1 == c) := by
  induction d with
  | nil =>
    unfold aidxSet
    rw [List.find?_cons_of_neg _ (by simpa using fun h => hc h.symm)]
  | cons e rest ih =>
    unfold aidxSet
    by_cases he : e.1 = cat
    · rw [if_pos he]
      rw [List.find?_cons_of_neg _ (by simpa using fun h => hc h.symm),
        List.find?_cons_of_neg _ (by rw [he]; simpa using fun h => hc h.symm)]
    · rw [if_neg he]
      by_cases hec : e.1 = c
      · rw [List.find?_cons_of_pos _ (by simpa using hec),
          List.find?_cons_of_pos _ (by simpa using hec)]
      · rw [List.find?_cons_of_neg _ (by simpa using hec),
          List.find?_cons_of_neg _ (by simpa using hec)]
        exact ih

theorem itemLe_trans : ∀ a b c : AssetItem, itemLe a b → itemLe b c → itemLe a c := by
  intro a b c hab hbc
  unfold itemLe at hab hbc ⊢
  exact decide_eq_true (le_trans (of_decide_eq_true hab) (of_decide_eq_true hbc))

theorem itemLe_total : ∀ a b : AssetItem, itemLe a b || itemLe b a := by
  intro a b
  unfold itemLe
  rcases le_total (toLex (a.subtype, a.path)) (toLex (b.subtype, b.path)) with h | h
  · rw [decide_eq_true h]
    rfl
  · rw [decide_eq_true h]
    simp

theorem sortItems_sorted (l : List AssetItem) :
    (sortItems l).Pairwise (fun a b => itemLe a b) :=
  List.sorted_mergeSort itemLe_trans itemLe_total l

theorem sortItems_of_sorted {l : List AssetItem} (h : l.Pairwise (fun a b => itemLe a b)) :
    sortItems l = l :=
  List.mergeSort_of_sorted h

theorem sortItems_perm (l : List AssetItem) : List.Perm (sortItems l) l :=
  List.mergeSort_perm l itemLe

theorem catItems_mergeCat_same (d : AIdx) (cat : String) (items : List AssetItem) :
    catItems (mergeCat d cat items) cat =
      sortItems (catItems d cat ++
        items.filter (fun it => decide (it.path ∉ (catItems d cat).map AssetItem.path))) := by
  unfold mergeCat catItems
  rw [aidxSet_find_same]

theorem catItems_mergeCat_other (d : AIdx) (cat : String) (items : List AssetItem)
    (c : String) (hc : c ≠ cat) :
    catItems (mergeCat d cat items) c = catItems d c := by
  unfold mergeCat catItems
  rw [aidxSet_find_other _ _ _ _ hc]

theorem find_mergeCat_isSome (d : AIdx) (cat : String) (items : List AssetItem)
    (c : String) (h : c = cat ∨ ((d.find? (fun e => e.1 == c)).isSome = true)) :
    ((mergeCat d cat items).find? (fun e => e.1 == c)).isSome = true := by
  unfold mergeCat
  rcases h with rfl | hs
  · rw [aidxSet_find_same]
    rfl
  · by_cases hc : c = cat
    · subst hc
      rw [aidxSet_find_same]
      rfl
    · rw [aidxSet_find_other _ _ _ _ hc]
      exact hs

/-- After merging a category, every incoming item's path is present in
the stored entry. -/
theorem mergeCat_paths_superset (d : AIdx) (cat : String) (items : List AssetItem) :
    ∀ it ∈ items, it.path ∈ (catItems (mergeCat d cat items) cat).map AssetItem.path := by
  intro it hit
  rw [catItems_mergeCat_same]
  have hperm := (sortItems_perm (catItems d cat ++
    items.filter (fun x => decide (x.path ∉ (catItems d cat).map AssetItem.path)))).map
    AssetItem.path
  rw [hperm.mem_iff, List.map_append, List.mem_append]
  by_cases hp : it.path ∈ (catItems d cat).map AssetItem.path
  · exact Or.inl hp
  · refine Or.inr (List.mem_map.mpr ⟨it, ?_, rfl⟩)
    exact List.mem_filter.mpr ⟨hit, by simpa using hp⟩

/-- The entry of a merged category only gains paths. -/
theorem mergeCat_paths_monotone (d : AIdx) (cat : String) (items : List AssetItem)
    (c : String) {p : String} (hp : p ∈ (catItems d c).map AssetItem.path) :
    p ∈ (catItems (mergeCat d cat items) c).map AssetItem.path := by
  by_cases hc : c = cat
  · subst hc
    rw [catItems_mergeCat_same]
    have hperm := (sortItems_perm (catItems d c ++
      items.filter (fun x => decide (x.path ∉ (catItems d c).map AssetItem.path)))).map
      AssetItem.path
    rw [hperm.mem_iff, List.map_append, List.mem_append]
    exact Or.inl hp
  · rw [catItems_mergeCat_other _ _ _ _ hc]
    exact hp

theorem mergedCat_establish (d : AIdx) (cat : String) (items : List AssetItem) :
    MergedCat (mergeCat d cat items) cat items := by
  refine ⟨find_mergeCat_isSome d cat items cat (Or.inl rfl), ?_,
    mergeCat_paths_superset d cat items⟩
  rw [catItems_mergeCat_same]
  exact sortItems_sorted _

theorem mergedCat_preserved {d : AIdx} {cat : String} {items : List AssetItem}
    (h : MergedCat d cat items) (cat' : String) (items' : List AssetItem) :
    MergedCat (mergeCat d cat' items') cat items := by
  obtain ⟨hfind, hsorted, hpaths⟩ := h
  by_cases hc : cat = cat'
  · subst hc
    refine ⟨find_mergeCat_isSome d cat items' cat (Or.inl rfl), ?_, ?_⟩
    · rw [catItems_mergeCat_same]
      exact sortItems_sorted _
    · intro it hit
      exact mergeCat_paths_monotone d cat items' cat (hpaths it hit)
  · refine ⟨find_mergeCat_isSome d cat' items' cat (Or.inr hfind), ?_, ?_⟩
    · rw [catItems_mergeCat_other _ _ _ _ hc]
      exact hsorted
    · intro it hit
      rw [catItems_mergeCat_other _ _ _ _ hc]
      exact hpaths it hit

theorem mergedCat_preserved_fold {cat : String} {items : List AssetItem} :
    ∀ (src : AIdx) (d : AIdx), MergedCat d cat items →
      MergedCat (src.foldl (fun d e => mergeCat d e.1 e.2) d) cat items := by
  intro src
  induction src with
  | nil => intro d h; exact h
  | cons e rest ih =>
    intro d h
    rw [List.foldl_cons]
    exact ih _ (mergedCat_preserved h e.1 e.2)

/-- After one full `merge_assets_index` pass, every source category
satisfies `MergedCat` in the result. -/
theorem mergedCat_after_merge :
    ∀ (src dst : AIdx) (e : String × List AssetItem), e ∈ src →
      MergedCat (merge_assets_index dst src) e.1 e.2 := by
  intro src
  induction src with
  | nil => intro dst e he; cases he
  | cons e0 rest ih =>
    intro dst e he
    unfold merge_assets_index
    rw [List.foldl_cons]
    rcases List.mem_cons.mp he with rfl | he'
    · exact mergedCat_preserved_fold rest _ (mergedCat_establish dst e.1 e.2)
    · exact ih _ e he'

theorem aidxSet_self :
    ∀ (d : AIdx) (cat : String), ((d.find? (fun e => e.1 == cat)).isSome = true) →
      aidxSet d cat (catItems d cat) = d := by
  intro d
  induction d with
  | nil => intro cat h; cases h
  | cons e rest ih =>
    intro cat h
    unfold aidxSet
    by_cases he : e.1 = cat
    · rw [if_pos he]
      have : catItems (e :: rest) cat = e.2 := by
        unfold catItems
        rw [List.find?_cons_of_pos _ (by simpa using he)]
      rw [this, ← he]
    · rw [if_neg he]
      have hfr : ((rest.find? (fun x => x.1 == cat)).isSome = true) := by
        unfold catItems at *
        rw [List.find?_cons_of_neg _ (by simpa using he)] at h
        exact h
      have hcat : catItems (e :: rest) cat = catItems rest cat := by
        unfold catItems
        rw [List.find?_cons_of_neg _ (by simpa using he)]
      rw [hcat, ih cat hfr]

theorem mergeCat_id {d : AIdx} {cat : String} {items : List AssetItem}
    (h : MergedCat d cat items) : mergeCat d cat items = d := by
  obtain ⟨hfind, hsorted, hpaths⟩ := h
  unfold mergeCat
  have hfilter : items.filter
      (fun it => decide (it.path ∉ (catItems d cat).map AssetItem.path)) = [] := by
    rw [List.filter_eq_nil_iff]
    intro it hit
    simp only [decide_not, Bool.not_eq_true, Bool.not_eq_false, decide_eq_true_eq]
    simpa using hpaths it hit
  rw [hfilter, List.append_nil, sortItems_of_sorted hsorted]
  exact aidxSet_self d cat hfind

theorem merge_fold_id {src : AIdx} :
    ∀ {d : AIdx}, (∀ e ∈ src, MergedCat d e.1 e.2) →
      src.foldl (fun d e => mergeCat d e.1 e.2) d = d := by
  induction src with
  | nil => intro d _; rfl
  | cons e rest ih =>
    intro d h
    rw [List.foldl_cons, mergeCat_id (h e (List.mem_cons_self _ _))]
    exact ih (fun x hx => h x (List.mem_cons_of_mem _ hx))

theorem merge_assets_index_idem (dst src : AIdx) :
    merge_assets_index (merge_assets_index dst src) src = merge_assets_index dst src :=
  merge_fold_id (fun e he => mergedCat_after_merge src dst e he)

theorem viewOf_annotateVariant (w : List Variant) (v : Variant) :
    viewOf (annotateVariant w v) = viewOf v := rfl

theorem filter_byid_map (fid : String) (w : List Variant) :
    (w.filter (fun v => hasFormId v && formIdStr v == fid)).map viewOf =
      (w.map viewOf).filter (fun x => hasFormIdView x && formIdStrView x == fid) := by
  have h := (List.filter_map
    (p := fun x => hasFormIdView x && formIdStrView x == fid) viewOf w).symm
  simpa [Function.comp, hasFormIdView, formIdStrView, hasFormId, formIdStr] using h

theorem var_by_id_congr {w₁ w₂ : List Variant}
    (hv : w₁.map viewOf = w₂.map viewOf) (fid : String) :
    (var_by_id w₁ fid).map viewOf = (var_by_id w₂ fid).map viewOf := by
  unfold var_by_id
  rw [← List.getLast?_map, ← List.getLast?_map, filter_byid_map, filter_byid_map, hv]

theorem var_by_id_isSome_congr {w₁ w₂ : List Variant}
    (hv : w₁.map viewOf = w₂.map viewOf) (fid : String) :
    (var_by_id w₁ fid).isSome = (var_by_id w₂ fid).isSome := by
  have h := var_by_id_congr hv fid
  cases h1 : var_by_id w₁ fid <;> cases h2 : var_by_id w₂ fid <;>
    rw [h1, h2] at h <;> simp_all

theorem rank_match_view (w : List Variant) (nid : String) :
    (match var_by_id w nid with
      | some v => rarity_rank_of_variant v
      | none => (-1 : Int)) =
    (match (var_by_id w nid).map viewOf with
      | some x => rankView x
      | none => (-1 : Int)) := by
  cases var_by_id w nid <;> rfl

theorem chain_key_congr {w₁ w₂ : List Variant}
    (hv : w₁.map viewOf = w₂.map viewOf) : chain_key w₁ = chain_key w₂ := by
  funext nid
  unfold chain_key
  rw [rank_match_view w₁ nid, rank_match_view w₂ nid, var_by_id_congr hv nid]

theorem next_ids_congr {w₁ w₂ : List Variant}
    (hv : w₁.map viewOf = w₂.map viewOf) : next_ids w₁ = next_ids w₂ := by
  funext fid
  have h := var_by_id_congr hv fid
  have hs : (fun i => (var_by_id w₁ i).isSome) = (fun i => (var_by_id w₂ i).isSome) :=
    funext (var_by_id_isSome_congr hv)
  unfold next_ids
  cases h1 : var_by_id w₁ fid with
  | none =>
    cases h2 : var_by_id w₂ fid with
    | none => rfl
    | some w => rw [h1, h2] at h; simp at h
  | some v =>
    cases h2 : var_by_id w₂ fid with
    | none => rw [h1, h2] at h; simp at h
    | some w =>
      rw [h1, h2] at h
      have hview : viewOf v = viewOf w := by simpa using h
      have htids : v.to_ids = w.to_ids := congrArg VariantView.to_ids hview
      simp only
      rw [htids, hs]

theorem allToIds_congr :
    ∀ {w₁ w₂ : List Variant}, w₁.map viewOf = w₂.map viewOf → allToIds w₁ = allToIds w₂ := by
  intro w₁
  induction w₁ with
  | nil =>
    intro w₂ hv
    cases w₂ with
    | nil => rfl
    | cons v rest => simp at hv
  | cons v rest ih =>
    intro w₂ hv
    cases w₂ with
    | nil => simp at hv
    | cons w rest' =>
      rw [List.map_cons, List.map_cons] at hv
      have h1 : viewOf v = viewOf w := (List.cons.injEq _ _ _ _ ▸ hv).1
      have h2 : rest.map viewOf = rest'.map viewOf := (List.cons.injEq _ _ _ _ ▸ hv).2
      have hto : v.to_ids = w.to_ids := congrArg VariantView.to_ids h1
      show v.to_ids ++ allToIds rest = w.to_ids ++ allToIds rest'
      rw [hto, ih h2]

theorem family_chain_congr {w₁ w₂ : List Variant}
    (hv : w₁.map viewOf = w₂.map viewOf) :
    family_has_any_chain w₁ = family_has_any_chain w₂ := by
  unfold family_has_any_chain
  have h : ∀ w : List Variant,
      w.any (fun v => !v.from_ids.isEmpty || !v.to_ids.isEmpty) =
      (w.map viewOf).any (fun x => !x.from_ids.isEmpty || !x.to_ids.isEmpty) := by
    intro w
    induction w with
    | nil => rfl
    | cons v rest ih =>
      rw [List.map_cons, List.any_cons, List.any_cons, ih]
      rfl
  rw [h w₁, h w₂, hv]

theorem pyMaxByKey_congr {w₁ w₂ : List Variant}
    (hv : w₁.map viewOf = w₂.map viewOf) (h : String) (t : List String) :
    pyMaxByKey w₁ h t = pyMaxByKey w₂ h t := by
  unfold pyMaxByKey
  rw [chain_key_congr hv]

theorem chain_head_fuel_congr {w₁ w₂ : List Variant}
    (hv : w₁.map viewOf = w₂.map viewOf) :
    ∀ (fuel : Nat) (seen : List String) (cur : String),
      chain_head_fuel w₁ fuel seen cur = chain_head_fuel w₂ fuel seen cur := by
  intro fuel
  induction fuel with
  | zero => intro seen cur; rfl
  | succ fuel ih =>
    intro seen cur
    unfold chain_head_fuel
    rw [next_ids_congr hv]
    cases hnx : next_ids w₂ cur with
    | nil => rfl
    | cons nh nt =>
      simp only
      rw [pyMaxByKey_congr hv nh nt]
      by_cases hin : pyMaxByKey w₂ nh nt ∈ seen
      · rw [if_pos hin, if_pos hin]
      · rw [if_neg hin, if_neg hin, ih]

theorem chain_head_congr {w₁ w₂ : List Variant}
    (hv : w₁.map viewOf = w₂.map viewOf) : chain_head w₁ = chain_head w₂ := by
  funext fid
  unfold chain_head chainFuel
  rw [allToIds_congr hv, chain_head_fuel_congr hv]

theorem annotateVariant_congr {w₁ w₂ : List Variant}
    (hv : w₁.map viewOf = w₂.map viewOf) :
    annotateVariant w₁ = annotateVariant w₂ := by
  funext v
  unfold annotateVariant headOf
  rw [family_chain_congr hv, chain_head_congr hv]

theorem annotateVariant_idem (w : List Variant) (v : Variant) :
    annotateVariant w (annotateVariant w v) = annotateVariant w v := rfl

theorem annotateVariant_key (w : List Variant) (v : Variant) :
    (annotateVariant w v).key = v.key := rfl

/-- After an upsert, the first variant whose key equals the upserted
record's key is that record itself. -/
theorem upsert_decomp (vs : List Variant) (vr : Variant) :
    ∃ pre suf, upsertVariant vr vs = pre ++ vr :: suf ∧ ∀ x ∈ pre, x.key ≠ vr.key := by
  induction vs with
  | nil => exact ⟨[], [], rfl, by intro x hx; cases hx⟩
  | cons v rest ih =>
    by_cases he : v.key = vr.key
    · refine ⟨[], rest, ?_, by intro x hx; cases hx⟩
      unfold upsertVariant
      rw [if_pos he]
      rfl
    · obtain ⟨pre, suf, heq, hpre⟩ := ih
      refine ⟨v :: pre, suf, ?_, ?_⟩
      · unfold upsertVariant
        rw [if_neg he, heq]
        rfl
      · intro x hx
        rcases List.mem_cons.mp hx with rfl | hx'
        · exact he
        · exact hpre x hx'

/-- Upserting the same record into a key-preserving image of an already
upserted list replaces exactly the previously upserted occurrence. -/
theorem upsert_on_keyed_map (f : Variant → Variant) (hf : ∀ x, (f x).key = x.key)
    (vr : Variant) :
    ∀ (pre suf : List Variant), (∀ x ∈ pre, x.key ≠ vr.key) →
      upsertVariant vr ((pre ++ vr :: suf).map f) = pre.map f ++ vr :: suf.map f := by
  intro pre
  induction pre with
  | nil =>
    intro suf _
    rw [List.nil_append, List.map_cons]
    unfold upsertVariant
    rw [if_pos (hf vr)]
    rfl
  | cons p pre' ih =>
    intro suf hpre
    rw [List.cons_append, List.map_cons]
    unfold upsertVariant
    rw [if_neg (by
      rw [hf p]
      exact hpre p (List.mem_cons_self _ _))]
    rw [ih suf (fun x hx => hpre x (List.mem_cons_of_mem _ hx))]
    rfl

/-- Key idempotence of the variants component of the merge: upserting the
same record into the annotated result and re-annotating changes
nothing. -/
theorem annotate_upsert_general (u : List Variant) (vr : Variant)
    (pre suf : List Variant) (hu : u = pre ++ vr :: suf)
    (hpre : ∀ x ∈ pre, x.key ≠ vr.key) :
    annotate (upsertVariant vr (annotate u)) = annotate u := by
  have h1 : upsertVariant vr (annotate u) =
      pre.map (annotateVariant u) ++ vr :: suf.map (annotateVariant u) := by
    show upsertVariant vr (u.map (annotateVariant u)) = _
    conv_lhs => rw [hu]
    rw [upsert_on_keyed_map (annotateVariant (pre ++ vr :: suf))
      (annotateVariant_key _) vr pre suf hpre]
    rw [← hu]
  have hviews : (upsertVariant vr (annotate u)).map viewOf = u.map viewOf := by
    rw [h1]
    conv_rhs => rw [hu]
    rw [List.map_append, List.map_append, List.map_cons, List.map_cons,
      List.map_map, List.map_map]
    have hcv : viewOf ∘ annotateVariant u = viewOf :=
      funext (fun x => viewOf_annotateVariant u x)
    rw [hcv]
  show (upsertVariant vr (annotate u)).map
      (annotateVariant (upsertVariant vr (annotate u))) = u.map (annotateVariant u)
  rw [annotateVariant_congr hviews, h1]
  rw [List.map_append, List.map_cons, List.map_map, List.map_map]
  have hcomp : annotateVariant u ∘ annotateVariant u = annotateVariant u :=
    funext (fun x => annotateVariant_idem u x)
  rw [hcomp]
  conv_rhs => rw [hu]
  rw [List.map_append, List.map_cons, ← hu]

theorem annotate_upsert_idem (vs : List Variant) (vr : Variant) :
    annotate (upsertVariant vr (annotate (upsertVariant vr vs))) =
      annotate (upsertVariant vr vs) := by
  obtain ⟨pre, suf, hu, hpre⟩ := upsert_decomp vs vr
  exact annotate_upsert_general (upsertVariant vr vs) vr pre suf hu hpre

/-- The document-level body of the merge is idempotent. -/
theorem mergeCore_idem (d : FamilyDoc) (uf : UnitFields) (vr : Variant) :
    mergeCore (mergeCore d uf vr) uf vr = mergeCore d uf vr := by
  unfold mergeCore
  simp only
  congr 1
  · exact refreshField_idem _ _
  · exact refreshField_idem _ _
  · exact refreshField_idem _ _
  · exact refreshField_idem _ _
  · exact annotate_upsert_idem _ _
  · exact pyUnionStr_idem _ _
  · exact merge_assets_index_idem _ _

/-- C1: merging the same variant record (with the same unit-level fields)
twice into any family document state yields the same document as merging
it once — the upsert replaces, the asset unions add nothing new, and the
awakening annotations recompute to the same values. -/
theorem merge_variant_idempotent (current : Option FamilyDoc) (uf : UnitFields)
    (vr : Variant) :
    merge_variant_into_unit_json (some (merge_variant_into_unit_json current uf vr)) uf vr =
      merge_variant_into_unit_json current uf vr := by
  unfold merge_variant_into_unit_json
  exact mergeCore_idem _ uf vr

end Dokkan

